import Mathlib

/-!
# Verification of the RAG ingestion / retrieval / memory core

Shallow embedding of the algorithmic core of the repository:

* `ChunkingService` (token-window `chunkText` and paragraph-aware
  `semanticChunking`),
* `FileProcessorService.processFile` (the ingestion state machine),
* `RAGService.retrieve` / `cosineSimilarity` / `formatContext`,
* `MemoryService` (`create`, `update`, `formatMemoriesForPrompt`) together
  with the zod validation schemas of `memory.controller.ts`,
* `AIService.extractMemories` (the validate-and-cap step on the parsed
  candidate list).

Strings are Lean `String`s (the sources' ASCII test inputs behave
identically under JS UTF-16 lengths and Lean scalar-value lengths).
JS numbers used as exact quantities (token counts, indices, character
counts, importance scores) are `Nat`/`Int`; similarity scores are `ℚ`
except for `cosineSimilarity` itself, whose square roots force an exact
real-number model.  The tiktoken encoder/decoder is an external library
and is passed in as an explicit function parameter.
-/

namespace Spec2Proof

/-! ## ChunkingService (chunking.service.ts)

The TS `Chunk` carries `content`, `index` and a metadata bag; the metadata
(token/char counts, `type: 'semantic'`) is never consulted by any code in
the repository, so the embedding keeps only `content` and `index`. -/

structure Chunk where
  content : String
  index : Nat
deriving DecidableEq, Repr

/-- `chunkTextGo decode tokens chunkSize chunkOverlap start index` is the
`while (start < tokens.length)` loop of `chunkText`: it emits the window
`tokens.slice(start, start + chunkSize)`, advances `start` by
`chunkSize - chunkOverlap`, and — mirroring the
`if (chunkSize <= chunkOverlap) break;` safety check — stops after one
window in the degenerate case. -/
def chunkTextGo (decode : List Nat → String) (tokens : List Nat)
    (chunkSize chunkOverlap : Nat) (start index : Nat) : List Chunk :=
  if h : start < tokens.length then
    let chunkTokens := (tokens.drop start).take chunkSize
    { content := decode chunkTokens, index := index } ::
      (if hb : chunkSize ≤ chunkOverlap then []
       else chunkTextGo decode tokens chunkSize chunkOverlap
        (start + (chunkSize - chunkOverlap)) (index + 1))
  else []
termination_by tokens.length - start
decreasing_by
  have hstep : 0 < chunkSize - chunkOverlap := Nat.sub_pos_of_lt (Nat.lt_of_not_le hb)
  omega

/-- `ChunkingService.chunkText`: encode the text, then run the token
window loop from `start = 0`, `index = 0`. -/
def chunkText (encode : String → List Nat) (decode : List Nat → String)
    (text : String) (chunkSize chunkOverlap : Nat) : List Chunk :=
  chunkTextGo decode (encode text) chunkSize chunkOverlap 0 0

/-- The character class `\s` of a JS regex (the whitespace code points of
ECMA-262; the exotic Unicode members are included for completeness). -/
def jsWhitespace (c : Char) : Bool :=
  c = ' ' ∨ c = '\t' ∨ c = '\n' ∨ c = '\r' ∨ c = '\x0b' ∨ c = '\x0c' ∨
  c = ' ' ∨ c = ' ' ∨ (' ' ≤ c ∧ c ≤ ' ') ∨
  c = ' ' ∨ c = ' ' ∨ c = ' ' ∨ c = ' ' ∨
  c = '　' ∨ c = '﻿'

/-- Suffix of `l` after its last `'\n'`, or `none` when `l` contains no
newline.  Used to realise the greedy match of `\s*\n` after the opening
`\n` of the separator regex. -/
def afterLastNewline : List Char → Option (List Char)
  | [] => none
  | c :: rest =>
    match afterLastNewline rest with
    | some s => some s
    | none => if c = '\n' then some rest else none

theorem takeWhile_length_le (p : Char → Bool) (l : List Char) :
    (l.takeWhile p).length ≤ l.length := by
  induction l with
  | nil => simp [List.takeWhile]
  | cons c rest ih =>
    simp only [List.takeWhile]
    cases p c
    · simp
    · simp
      omega

theorem afterLastNewline_length_lt {l : List Char} :
    ∀ {s : List Char}, afterLastNewline l = some s → s.length < l.length := by
  induction l with
  | nil => intro s h; simp [afterLastNewline] at h
  | cons c rest ih =>
    intro s h
    simp only [afterLastNewline] at h
    cases hrest : afterLastNewline rest with
    | some s' =>
      rw [hrest] at h
      simp only [Option.some.injEq] at h
      subst h
      have := ih hrest
      simp only [List.length_cons]
      omega
    | none =>
      rw [hrest] at h
      by_cases hc : c = '\n'
      · simp only [hc, if_true, Option.some.injEq] at h
        subst h
        simp
      · simp [hc] at h

/-- The scanning loop of `text.split(/\n\s*\n/)`.  At a `'\n'`, the regex
`\n\s*\n` matches when the maximal following whitespace run contains
another newline; the greedy `\s*` consumes up to the *last* newline in
that run.  `buf` holds the current piece in reverse. -/
def splitParagraphsGo : List Char → List Char → List String → List String
  | [], buf, acc => acc ++ [String.mk buf.reverse]
  | c :: rest, buf, acc =>
    if c = '\n' then
      let run := rest.takeWhile jsWhitespace
      match hm : afterLastNewline run with
      | some s =>
        splitParagraphsGo (s ++ rest.drop run.length) []
          (acc ++ [String.mk buf.reverse])
      | none => splitParagraphsGo rest (c :: buf) acc
    else splitParagraphsGo rest (c :: buf) acc
termination_by cs _ _ => cs.length
decreasing_by
  · have h1 : s.length < (rest.takeWhile jsWhitespace).length :=
      afterLastNewline_length_lt hm
    have h2 : (rest.takeWhile jsWhitespace).length ≤ rest.length :=
      takeWhile_length_le jsWhitespace rest
    simp only [List.length_append, List.length_drop, List.length_cons]
    omega
  · simp
  · simp

/-- `text.split(/\n\s*\n/)` as used by `semanticChunking`. -/
def splitParagraphs (text : String) : List String :=
  splitParagraphsGo text.data [] []

/-- The greedy first pass of `semanticChunking`: fold the paragraph list,
concatenating into `currentChunk` while `(currentChunk + para).length`
stays under `chunkSize * 4`, flushing (with a fresh index) otherwise, and
flushing the trailing buffer at the end.  `cur`, `acc`, `index` are the
loop variables `currentChunk`, `chunks`, `index`. -/
def semanticPass (chunkSize : Nat) : List String → String → List Chunk → Nat → List Chunk
  | [], cur, acc, index =>
    if cur ≠ "" then acc ++ [{ content := cur, index := index }] else acc
  | para :: rest, cur, acc, index =>
    if (cur ++ para).length < chunkSize * 4 then
      semanticPass chunkSize rest
        (cur ++ (if cur ≠ "" then "\n\n" else "") ++ para) acc index
    else if cur ≠ "" then
      semanticPass chunkSize rest para
        (acc ++ [{ content := cur, index := index }]) (index + 1)
    else
      semanticPass chunkSize rest para acc index

/-- `ChunkingService.semanticChunking`: paragraph-aware first pass, then
`flatMap` re-chunking any chunk whose token count exceeds `chunkSize`
through `chunkText` (which restarts its indices at 0). -/
def semanticChunking (encode : String → List Nat) (decode : List Nat → String)
    (text : String) (chunkSize chunkOverlap : Nat) : List Chunk :=
  let chunks := semanticPass chunkSize (splitParagraphs text) "" [] 0
  chunks.flatMap fun c =>
    if chunkSize < (encode c.content).length then
      chunkText encode decode c.content chunkSize chunkOverlap
    else [c]

/-! ## RAGService (rag.service.ts) -/

/-- A row of the `fileEmbedding.findMany` result, flattened to the fields
`retrieve` reads: the stored vector and the chunk/file columns that are
copied into the `RetrievedChunk`. -/
structure EmbeddingRow where
  vector : List ℚ
  content : String
  fileId : String
  fileName : String
  fileTag : Option String
  chunkIndex : Nat
deriving DecidableEq, Repr

/-- `RetrievedChunk` of rag.service.ts (the unconsulted `metadata` bag is
omitted). -/
structure RetrievedChunk where
  content : String
  fileId : String
  fileName : String
  fileTag : Option String
  similarity : ℚ
  chunkIndex : Nat
deriving DecidableEq, Repr

/-- Stable insertion of `c` into a list sorted by descending similarity:
`c` passes over exactly the elements strictly more similar, so equal
scores keep their original relative order — the semantics of the stable
`Array.prototype.sort((a, b) => b.similarity - a.similarity)`. -/
def insertDesc (c : RetrievedChunk) : List RetrievedChunk → List RetrievedChunk
  | [] => [c]
  | d :: rest =>
    if c.similarity ≤ d.similarity then d :: insertDesc c rest else c :: d :: rest

/-- Stable sort by descending similarity. -/
def sortBySimilarityDesc : List RetrievedChunk → List RetrievedChunk
  | [] => []
  | c :: rest => insertDesc c (sortBySimilarityDesc rest)

/-- `RAGService.retrieve` from the point where the query embedding and the
subject's embedding rows are in hand (steps 3–5 of the source: map each
row to a scored `RetrievedChunk`, stable-sort by descending similarity,
drop scores below `minSimilarity`, keep the first `topK`).  The scoring
function is a parameter because the source's `cosineSimilarity` computes
with square roots (see `cosineSimilarity` below); `retrieve` never
inspects the scores other than by comparison.  `topK?`/`minSimilarity?`
model the optional `options` fields with their defaults `5` and `0.3`. -/
def retrieve (simFn : List ℚ → List ℚ → ℚ) (queryEmbedding : List ℚ)
    (rows : List EmbeddingRow) (topK? : Option Nat) (minSimilarity? : Option ℚ) :
    List RetrievedChunk :=
  let topK := topK?.getD 5
  let minSimilarity := minSimilarity?.getD (3 / 10)
  let rankedChunks := sortBySimilarityDesc (rows.map fun item =>
    { content := item.content
      fileId := item.fileId
      fileName := item.fileName
      fileTag := item.fileTag
      similarity := simFn queryEmbedding item.vector
      chunkIndex := item.chunkIndex })
  ((rankedChunks.filter fun chunk => minSimilarity ≤ chunk.similarity).take topK)

/-- `dotProduct` accumulated by the loop of `cosineSimilarity` (the loop
runs over the indices of `vecA`; on the equal-length vectors produced by
one embedding model this is the usual dot product). -/
def dotProduct (vecA vecB : List ℚ) : ℚ :=
  (List.zipWith (fun a b => a * b) vecA vecB).sum

/-- `RAGService.cosineSimilarity`, in exact real arithmetic.  The source
computes `dot / (Math.sqrt(normA) * Math.sqrt(normB))` and maps `NaN` to
`0`.  In IEEE arithmetic that quotient is `NaN` exactly when the
denominator is `0` (a zero denominator forces a zero numerator, since a
zero-norm vector is the zero vector), so the `isNaN` guard is embedded as
the zero test on the denominator. -/
noncomputable def cosineSimilarity (vecA vecB : List ℚ) : ℝ :=
  let dp : ℚ := dotProduct vecA vecB
  let normA : ℚ := dotProduct vecA vecA
  let normB : ℚ := dotProduct vecB vecB
  if Real.sqrt (normA : ℝ) * Real.sqrt (normB : ℝ) = 0 then 0
  else (dp : ℝ) / (Real.sqrt (normA : ℝ) * Real.sqrt (normB : ℝ))

/-- `RAGService.formatContext`: the sentinel string for an empty chunk
list, otherwise the source-labelled fragments joined by blank lines. -/
def formatContext (chunks : List RetrievedChunk) : String :=
  if chunks.length = 0 then "No relevant information found in study materials."
  else
    String.intercalate "\n\n" ((chunks.enum.map fun ci =>
      let source := "Source " ++ toString (ci.1 + 1) ++ ": " ++ ci.2.fileName ++
        (match ci.2.fileTag with
         | some t => " (" ++ t ++ ")"
         | none => "")
      "--- " ++ source ++ " ---\n" ++ ci.2.content))

/-! ## MemoryService (memory.service.ts) and its controller schemas -/

/-- The `MemoryCategory` prisma enum. -/
inductive MemoryCategory where
  | PREFERENCE | FACT | PROGRESS | CORRECTION | GOAL | CUSTOM
deriving DecidableEq, Repr

/-- A `SubjectMemory` row, restricted to the columns the verified
operations read or write (identity/timestamps are managed by the
persistence layer). -/
structure SubjectMemory where
  content : String
  category : MemoryCategory
  importance : Int
  isActive : Bool
  expiresAt : Option Int
  sourceConversationId : Option String
  subjectId : String
deriving DecidableEq, Repr

/-- `MAX_MEMORY_CHARS` of memory.service.ts. -/
def MAX_MEMORY_CHARS : Nat := 4000

/-- `CreateMemoryInput` of memory.service.ts. -/
structure CreateMemoryInput where
  content : String
  category : MemoryCategory
  importance : Option Int
  sourceConversationId : Option String
  expiresAt : Option Int
deriving DecidableEq, Repr

/-- `UpdateMemoryInput` of memory.service.ts.  A `none` field is an
absent (`undefined`) field, which prisma leaves unchanged; `expiresAt`
distinguishes absent (`none`) from an explicit `null`
(`some none`). -/
structure UpdateMemoryInput where
  content : Option String
  category : Option MemoryCategory
  importance : Option Int
  isActive : Option Bool
  expiresAt : Option (Option Int)
deriving DecidableEq, Repr

/-- The row written by `MemoryService.create`
(`importance: input.importance ?? 5`, `isActive` takes its schema
default `true`). -/
def MemoryService.create (subjectId : String) (input : CreateMemoryInput) :
    SubjectMemory :=
  { content := input.content
    category := input.category
    importance := input.importance.getD 5
    isActive := true
    expiresAt := input.expiresAt
    sourceConversationId := input.sourceConversationId
    subjectId := subjectId }

/-- The row produced by `MemoryService.update` on an existing row:
`prisma.subjectMemory.update({ data: input })` overwrites exactly the
fields that are present. -/
def MemoryService.update (memory : SubjectMemory) (input : UpdateMemoryInput) :
    SubjectMemory :=
  { content := input.content.getD memory.content
    category := input.category.getD memory.category
    importance := input.importance.getD memory.importance
    isActive := input.isActive.getD memory.isActive
    expiresAt := input.expiresAt.getD memory.expiresAt
    sourceConversationId := memory.sourceConversationId
    subjectId := memory.subjectId }

/-- The raw JSON body of `POST /subjects/:subjectId/memories` as seen by
zod, restricted to well-typed fields (zod rejects ill-typed ones). -/
structure RawMemoryBody where
  content : Option String
  category : Option String
  importance : Option Int
  expiresAt : Option Int
deriving DecidableEq, Repr

/-- The `z.enum([...])` of both controller schemas. -/
def parseCategory : String → Option MemoryCategory
  | "PREFERENCE" => some .PREFERENCE
  | "FACT" => some .FACT
  | "PROGRESS" => some .PROGRESS
  | "CORRECTION" => some .CORRECTION
  | "GOAL" => some .GOAL
  | "CUSTOM" => some .CUSTOM
  | _ => none

/-- `createMemorySchema.parse` followed by the controller's assembly of
the service input: content length 1–1000, category in the enum,
importance an integer in 1–10 defaulting to 5 when absent. -/
def createMemorySchemaParse (body : RawMemoryBody) : Option CreateMemoryInput :=
  match body.content, body.category with
  | some content, some catStr =>
    if content.length < 1 ∨ 1000 < content.length then none
    else
      match parseCategory catStr with
      | none => none
      | some category =>
        match body.importance with
        | none =>
          some { content := content, category := category, importance := some 5,
                 sourceConversationId := none, expiresAt := body.expiresAt }
        | some i =>
          if 1 ≤ i ∧ i ≤ 10 then
            some { content := content, category := category, importance := some i,
                   sourceConversationId := none, expiresAt := body.expiresAt }
          else none
  | _, _ => none

/-- The raw JSON body of `PATCH /memories/:memoryId` as seen by zod,
restricted to well-typed fields. -/
structure RawUpdateBody where
  content : Option String
  category : Option String
  importance : Option Int
  isActive : Option Bool
  expiresAt : Option (Option Int)
deriving DecidableEq, Repr

/-- The optional-content check of `updateMemorySchema`
(`z.string().min(1).max(1000).optional()`). -/
def updateContentOk : Option String → Bool
  | none => true
  | some c => decide (1 ≤ c.length ∧ c.length ≤ 1000)

/-- The optional-importance check of `updateMemorySchema`
(`z.number().int().min(1).max(10).optional()`). -/
def updateImportanceOk : Option Int → Bool
  | none => true
  | some i => decide (1 ≤ i ∧ i ≤ 10)

/-- The optional-category parse of `updateMemorySchema`: absent is
accepted as absent, present must be one of the six names. -/
def updateCategoryParse : Option String → Option (Option MemoryCategory)
  | none => some none
  | some s => (parseCategory s).map some

/-- `updateMemorySchema.parse` followed by the controller's assembly of
the service input: every field optional; content length 1–1000 and
importance 1–10 when present. -/
def updateMemorySchemaParse (body : RawUpdateBody) : Option UpdateMemoryInput :=
  match updateCategoryParse body.category with
  | none => none
  | some category =>
    if updateContentOk body.content && updateImportanceOk body.importance then
      some { content := body.content, category := category,
             importance := body.importance, isActive := body.isActive,
             expiresAt := body.expiresAt }
    else none

/-- The category → header-label table of `formatMemoriesForPrompt`. -/
def categoryLabel : MemoryCategory → String
  | .PREFERENCE => "📌 Learning Preferences"
  | .FACT => "📝 Student Info"
  | .PROGRESS => "✅ Progress"
  | .CORRECTION => "🔄 Corrections"
  | .GOAL => "🎯 Goals & Deadlines"
  | .CUSTOM => "💡 Notes"

/-- The header emitted for a category group. -/
def categoryHeader (cat : MemoryCategory) : String :=
  "\n**" ++ categoryLabel cat ++ "**:\n"

/-- The line emitted for one memory. -/
def memoryLine (m : SubjectMemory) : String :=
  "- " ++ m.content ++ "\n"

/-- One step of the insertion-ordered `Map` grouping of
`formatMemoriesForPrompt`: append `m` to its category's bucket, or open a
new bucket at the end on first occurrence. -/
def groupInsert (acc : List (MemoryCategory × List SubjectMemory))
    (m : SubjectMemory) : List (MemoryCategory × List SubjectMemory) :=
  if acc.any fun g => g.1 = m.category then
    acc.map fun g => if g.1 = m.category then (g.1, g.2 ++ [m]) else g
  else acc ++ [(m.category, [m])]

/-- The insertion-ordered `Map` grouping of `formatMemoriesForPrompt`:
first occurrence of a category fixes its position, later memories of the
same category append to its bucket. -/
def groupByCategory (memories : List SubjectMemory) :
    List (MemoryCategory × List SubjectMemory) :=
  memories.foldl groupInsert []

/-- The inner `for (const memory of categoryMemories)` loop: append whole
lines while the running character count stays within the budget; the
first line that would overflow stops this group (and only this group). -/
def emitLines : List SubjectMemory → String × Nat → String × Nat
  | [], acc => acc
  | m :: rest, (s, charCount) =>
    let line := memoryLine m
    if MAX_MEMORY_CHARS < charCount + line.length then (s, charCount)
    else emitLines rest (s ++ line, charCount + line.length)

/-- The outer `for (const [category, categoryMemories] of grouped)` loop:
a header that would overflow stops the whole emission. -/
def emitGroups : List (MemoryCategory × List SubjectMemory) → String × Nat → String × Nat
  | [], acc => acc
  | (cat, ms) :: rest, (s, charCount) =>
    let header := categoryHeader cat
    if MAX_MEMORY_CHARS < charCount + header.length then (s, charCount)
    else emitGroups rest (emitLines ms (s ++ header, charCount + header.length))

/-- JS `String.prototype.trim`: drop whitespace from both ends. -/
def jsTrim (s : String) : String :=
  String.mk ((((s.data.dropWhile jsWhitespace).reverse).dropWhile jsWhitespace).reverse)

/-- `MemoryService.formatMemoriesForPrompt`. -/
def formatMemoriesForPrompt (memories : List SubjectMemory) : String :=
  if memories.length = 0 then ""
  else jsTrim (emitGroups (groupByCategory memories) ("", 0)).1

/-! ## AIService.extractMemories (ai.service.ts) -/

/-- `ExtractedMemoryItem` as parsed from the reasoning backend's JSON:
`category` is still a raw string at this point, and `content` may be
empty. -/
structure ExtractedMemoryItem where
  content : String
  category : String
  importance : Int
deriving DecidableEq, Repr

/-- The validity check of the `filter` in `extractMemories`: truthy
content, length strictly between 5 and 500, category among the six fixed
names, importance between 1 and 10. -/
def extractedMemoryValid (m : ExtractedMemoryItem) : Bool :=
  m.content ≠ "" ∧ 5 < m.content.length ∧ m.content.length < 500 ∧
  (m.category = "PREFERENCE" ∨ m.category = "FACT" ∨ m.category = "PROGRESS" ∨
   m.category = "CORRECTION" ∨ m.category = "GOAL" ∨ m.category = "CUSTOM") ∧
  1 ≤ m.importance ∧ m.importance ≤ 10

/-- `AIService.extractMemories` from the point where the backend response
has been parsed into a candidate list (lines 630–639 of the source):
filter out invalid candidates, keep at most the first 3. -/
def extractMemories (candidates : List ExtractedMemoryItem) :
    List ExtractedMemoryItem :=
  (candidates.filter extractedMemoryValid).take 3

/-! ## FileProcessorService.processFile (file-processor.service.ts)

`processFile` is one `try`/`catch` around: load file → status PROCESSING →
extract → reject empty text → `semanticChunking(text, {chunkSize: 500,
chunkOverlap: 50})` → embed and persist in batches of 10 → status
COMPLETED; the `catch` sets status FAILED, itself guarded by a `.catch`
so nothing escapes.  The external effects are an explicit environment:
the loaded row, the extraction outcome, and success flags for each
fallible persistence/embedding step (the chunker is in-process and cannot
throw).  Batch-level partial persistence on an embedding failure is
collapsed to "no fragments persisted": no claim distinguishes the
prefixes, and every claim about persisted fragments concerns runs that
reach COMPLETED, where all batches — whose concatenation is exactly the
chunk list — are persisted. -/

/-- The prisma `ProcessStatus` enum. -/
inductive ProcessStatus where
  | PENDING | PROCESSING | COMPLETED | FAILED
deriving DecidableEq, Repr

/-- `extract` result (text-extraction.service.ts): the extracted text
(the metadata bag is not consulted by `processFile`). -/
structure ExtractionResult where
  text : String
deriving DecidableEq, Repr

/-- The environment of one `processFile` run. -/
structure PipelineEnv where
  /-- `prisma.file.findUnique`: `none` models a missing row; the payload
  is the file's current status (the only column the model tracks). -/
  file : Option ProcessStatus
  /-- Whether the status-PROCESSING update succeeds. -/
  updateProcessingOk : Bool
  /-- `textExtractionService.extract`: an exception or a result. -/
  extract : Except String ExtractionResult
  /-- Whether every `generateBatch` call and batch persistence succeeds. -/
  embedOk : Bool
  /-- Whether the status-COMPLETED update succeeds. -/
  updateCompletedOk : Bool
  /-- Whether the `catch`-block status-FAILED update succeeds (its own
  failure is swallowed by `.catch`). -/
  updateFailedOk : Bool
deriving Repr

/-- Outcome of a `processFile` run: the file row's final status (`none`
when the row does not exist), the persisted `(chunkIndex, content)`
pairs, and whether `processFile` raised to its caller. -/
structure PipelineOutcome where
  status : Option ProcessStatus
  fragments : List (Nat × String)
  raised : Bool
deriving DecidableEq, Repr

/-- The `catch` block: best-effort status-FAILED write. -/
def pipelineCatch (env : PipelineEnv) (current : ProcessStatus)
    (persisted : List (Nat × String)) : PipelineOutcome :=
  { status := some (if env.updateFailedOk then .FAILED else current)
    fragments := persisted
    raised := false }

/-- `FileProcessorService.processFile`. -/
def processFile (encode : String → List Nat) (decode : List Nat → String)
    (env : PipelineEnv) : PipelineOutcome :=
  match env.file with
  | none => { status := none, fragments := [], raised := false }
  | some st0 =>
    if ¬ env.updateProcessingOk then pipelineCatch env st0 []
    else
      match env.extract with
      | .error _ => pipelineCatch env .PROCESSING []
      | .ok extractionResult =>
        if extractionResult.text = "" ∨ jsTrim extractionResult.text = "" then
          pipelineCatch env .PROCESSING []
        else
          let chunks := semanticChunking encode decode extractionResult.text 500 50
          if ¬ env.embedOk then pipelineCatch env .PROCESSING []
          else if ¬ env.updateCompletedOk then
            pipelineCatch env .PROCESSING (chunks.map fun c => (c.index, c.content))
          else
            { status := some .COMPLETED
              fragments := chunks.map fun c => (c.index, c.content)
              raised := false }

/-! ## Concrete instantiations used by witnesses and counterexamples

The tiktoken encoder is abstract in the embedding; witnesses instantiate
it with a one-token-per-character codec, which shares the only relevant
properties (the empty string encodes to the empty token list, a
`k`-character ASCII string to `k` tokens). -/

/-- One token per character. -/
def charEncode (s : String) : List Nat := s.data.map Char.toNat

/-- Inverse of `charEncode`. -/
def charDecode (ts : List Nat) : String := String.mk (ts.map Char.ofNat)

/-- A 2,000-character paragraph of `'a'`s: alone it overflows the
`chunkSize * 4 = 2000` character budget of the semantic pass, and its
2,000 one-character tokens exceed the 500-token chunk size. -/
def c1ParaA : String := String.mk (List.replicate 2000 'a')

/-- `c1ParaA`, a blank line, then `"b"`: the semantic pass closes
`c1ParaA` as chunk 0 and emits `"b"` as chunk 1; chunk 0 then exceeds 500
tokens and is re-chunked by `chunkText`, whose indices restart at 0. -/
def c1Text : String := c1ParaA ++ "\n\nb"

/-- A fully successful pipeline environment around `c1Text`. -/
def c1Env : PipelineEnv :=
  { file := some .PENDING, updateProcessingOk := true,
    extract := .ok { text := c1Text }, embedOk := true,
    updateCompletedOk := true, updateFailedOk := true }

/-- A fully successful pipeline environment around a one-paragraph text
that needs no re-chunking. -/
def smallEnv : PipelineEnv :=
  { file := some .PENDING, updateProcessingOk := true,
    extract := .ok { text := "hello" }, embedOk := true,
    updateCompletedOk := true, updateFailedOk := true }

/-- A pipeline environment whose extraction yields whitespace-only
text. -/
def emptyTextEnv : PipelineEnv :=
  { file := some .PENDING, updateProcessingOk := true,
    extract := .ok { text := "  \n " }, embedOk := true,
    updateCompletedOk := true, updateFailedOk := true }

/-- A scoring function reading the candidate's stored score from its
first vector entry, for witness scenarios. -/
def headScore : List ℚ → List ℚ → ℚ := fun _ v => v.headI

/-- An embedding row whose single-entry vector carries the score
`headScore` will report. -/
def scoreRow (s : ℚ) : EmbeddingRow :=
  { vector := [s], content := "c", fileId := "f", fileName := "doc.pdf",
    fileTag := none, chunkIndex := 0 }

/-- The §8 retrieval scenario: candidates scoring 0.95, 0.6, 0.91. -/
def scenarioRows : List EmbeddingRow :=
  [scoreRow (95 / 100), scoreRow (6 / 10), scoreRow (91 / 100)]

/-- A valid concrete extraction candidate. -/
def c2Item : ExtractedMemoryItem :=
  { content := "studies at night", category := "PREFERENCE", importance := 7 }

/-- The chunk `retrieve` produces for `scoreRow (95/100)` under
`headScore`. -/
def c4TopChunk : RetrievedChunk :=
  { content := "c", fileId := "f", fileName := "doc.pdf", fileTag := none,
    similarity := 95 / 100, chunkIndex := 0 }

/-- The candidate-memory predicate as the spec sentence words it:
content length 5–500 (inclusive), category in the fixed set, importance
1–10.  Stated for comparison with `extractedMemoryValid`, the predicate
the code applies. -/
def specExtractedMemoryValid (m : ExtractedMemoryItem) : Bool :=
  5 ≤ m.content.length ∧ m.content.length ≤ 500 ∧
  (m.category = "PREFERENCE" ∨ m.category = "FACT" ∨ m.category = "PROGRESS" ∨
   m.category = "CORRECTION" ∨ m.category = "GOAL" ∨ m.category = "CUSTOM") ∧
  1 ≤ m.importance ∧ m.importance ≤ 10

/-! ## Supporting lemmas -/

theorem mem_insertDesc {c d : RetrievedChunk} {l : List RetrievedChunk}
    (h : d ∈ insertDesc c l) : d = c ∨ d ∈ l := by
  induction l with
  | nil => simpa [insertDesc] using h
  | cons e rest ih =>
    simp only [insertDesc] at h
    by_cases hc : c.similarity ≤ e.similarity
    · simp only [hc, if_true, List.mem_cons] at h
      rcases h with h | h
      · exact Or.inr (by simp [h])
      · rcases ih h with h' | h'
        · exact Or.inl h'
        · exact Or.inr (by simp [h'])
    · simp only [hc, if_false, List.mem_cons] at h
      rcases h with h | h | h
      · exact Or.inl h
      · exact Or.inr (by simp [h])
      · exact Or.inr (by simp [h])

theorem mem_sortBySimilarityDesc {d : RetrievedChunk} {l : List RetrievedChunk}
    (h : d ∈ sortBySimilarityDesc l) : d ∈ l := by
  induction l with
  | nil => simpa [sortBySimilarityDesc] using h
  | cons c rest ih =>
    simp only [sortBySimilarityDesc] at h
    rcases mem_insertDesc h with h' | h'
    · simp [h']
    · simp [ih h']

theorem processFile_raised_false (encode : String → List Nat)
    (decode : List Nat → String) (env : PipelineEnv) :
    (processFile encode decode env).raised = false := by
  obtain ⟨file, up, ex, em, uc, uf⟩ := env
  cases file with
  | none => rfl
  | some st =>
    cases ex with
    | error e =>
      cases up <;> simp [processFile, pipelineCatch]
    | ok er =>
      cases up <;> cases em <;> cases uc <;>
        simp [processFile, pipelineCatch] <;>
        split <;> simp [pipelineCatch]

theorem dotProduct_self_zero {a : List ℚ} (h : ∀ x ∈ a, x = 0) :
    dotProduct a a = 0 := by
  induction a with
  | nil => simp [dotProduct]
  | cons x rest ih =>
    have hx : x = 0 := h x (by simp)
    have hrest : dotProduct rest rest = 0 := ih fun y hy => h y (by simp [hy])
    simp only [dotProduct, List.zipWith_cons_cons, List.sum_cons] at *
    rw [hx, hrest]
    ring

theorem createParse_importance {body : RawMemoryBody} {input : CreateMemoryInput}
    (h : createMemorySchemaParse body = some input) :
    ∃ i, input.importance = some i ∧ 1 ≤ i ∧ i ≤ 10 := by
  unfold createMemorySchemaParse at h
  split at h
  · split_ifs at h with hlen
    split at h
    · simp at h
    · split at h
      · simp only [Option.some.injEq] at h
        subst h
        exact ⟨5, rfl, by omega, by omega⟩
      · split_ifs at h with hi
        simp only [Option.some.injEq] at h
        subst h
        exact ⟨_, rfl, hi.1, hi.2⟩
  · simp at h

theorem updateParse_importance {body : RawUpdateBody} {input : UpdateMemoryInput}
    (h : updateMemorySchemaParse body = some input) :
    input.importance = none ∨ ∃ i, input.importance = some i ∧ 1 ≤ i ∧ i ≤ 10 := by
  unfold updateMemorySchemaParse at h
  split at h
  · exact Option.noConfusion h
  · split_ifs at h with hok
    simp only [Option.some.injEq] at h
    subst h
    simp only [Bool.and_eq_true] at hok
    rcases hbi : body.importance with _ | i
    · exact Or.inl (by simp [hbi])
    · refine Or.inr ⟨i, by simp [hbi], ?_⟩
      have h2 := hok.2
      rw [hbi] at h2
      simp only [updateImportanceOk, decide_eq_true_eq] at h2
      exact h2

theorem dropWhile_length_le {α : Type} (p : α → Bool) (l : List α) :
    (l.dropWhile p).length ≤ l.length := by
  induction l with
  | nil => simp [List.dropWhile]
  | cons c rest ih =>
    simp only [List.dropWhile]
    cases p c
    · simp
    · simp
      omega

theorem jsTrim_length_le (s : String) : (jsTrim s).length ≤ s.length := by
  have h1 := dropWhile_length_le jsWhitespace s.data
  have h2 := dropWhile_length_le jsWhitespace (s.data.dropWhile jsWhitespace).reverse
  simp only [jsTrim]
  show ((((s.data.dropWhile jsWhitespace).reverse).dropWhile jsWhitespace).reverse).length ≤ s.length
  rw [List.length_reverse]
  rw [List.length_reverse] at h2
  calc (((s.data.dropWhile jsWhitespace).reverse).dropWhile jsWhitespace).length
      ≤ (s.data.dropWhile jsWhitespace).length := h2
    _ ≤ s.data.length := h1
    _ = s.length := rfl

theorem emitLines_budget (ms : List SubjectMemory) :
    ∀ (s : String) (c : Nat), s.length = c → c ≤ MAX_MEMORY_CHARS →
      (emitLines ms (s, c)).1.length = (emitLines ms (s, c)).2 ∧
      (emitLines ms (s, c)).2 ≤ MAX_MEMORY_CHARS := by
  induction ms with
  | nil => intro s c hs hc; exact ⟨hs, hc⟩
  | cons m rest ih =>
    intro s c hs hc
    simp only [emitLines]
    split_ifs with hover
    · exact ⟨hs, hc⟩
    · exact ih (s ++ memoryLine m) (c + (memoryLine m).length)
        (by rw [String.length_append, hs]) (by omega)

theorem emitGroups_budget (groups : List (MemoryCategory × List SubjectMemory)) :
    ∀ (s : String) (c : Nat), s.length = c → c ≤ MAX_MEMORY_CHARS →
      (emitGroups groups (s, c)).1.length = (emitGroups groups (s, c)).2 ∧
      (emitGroups groups (s, c)).2 ≤ MAX_MEMORY_CHARS := by
  induction groups with
  | nil => intro s c hs hc; exact ⟨hs, hc⟩
  | cons g rest ih =>
    intro s c hs hc
    simp only [emitGroups]
    split_ifs with hover
    · exact ⟨hs, hc⟩
    · have hinner := emitLines_budget g.2 (s ++ categoryHeader g.1)
        (c + (categoryHeader g.1).length)
        (by rw [String.length_append, hs]) (by omega)
      exact ih (emitLines g.2 (s ++ categoryHeader g.1,
          c + (categoryHeader g.1).length)).1
        (emitLines g.2 (s ++ categoryHeader g.1,
          c + (categoryHeader g.1).length)).2 hinner.1 hinner.2

theorem foldr_append_str (units : List String) (z : String) :
    units.foldr (· ++ ·) z = units.foldr (· ++ ·) "" ++ z := by
  induction units with
  | nil => simp [String.empty_append]
  | cons u us ih =>
    simp only [List.foldr_cons]
    rw [ih, String.append_assoc]

theorem emitLines_units (P : String → Prop) (ms : List SubjectMemory)
    (hP : ∀ m ∈ ms, P (memoryLine m)) :
    ∀ (s : String) (c : Nat), ∃ units : List String,
      (emitLines ms (s, c)).1 = s ++ units.foldr (· ++ ·) "" ∧ ∀ u ∈ units, P u := by
  induction ms with
  | nil =>
    intro s c
    exact ⟨[], by simp [emitLines, String.append_empty], by simp⟩
  | cons m rest ih =>
    intro s c
    simp only [emitLines]
    split_ifs with hover
    · exact ⟨[], by simp [String.append_empty], by simp⟩
    · obtain ⟨units, hu1, hu2⟩ :=
        ih (fun m' hm' => hP m' (by simp [hm'])) (s ++ memoryLine m)
          (c + (memoryLine m).length)
      refine ⟨memoryLine m :: units, ?_, ?_⟩
      · rw [hu1]
        show s ++ memoryLine m ++ units.foldr (· ++ ·) "" =
          s ++ (memoryLine m ++ units.foldr (· ++ ·) "")
        rw [String.append_assoc]
      · intro u hu
        rcases List.mem_cons.mp hu with h | h
        · exact h ▸ hP m (by simp)
        · exact hu2 u h

theorem emitGroups_units (P : String → Prop)
    (groups : List (MemoryCategory × List SubjectMemory))
    (hP : ∀ g ∈ groups, P (categoryHeader g.1) ∧ ∀ m ∈ g.2, P (memoryLine m)) :
    ∀ (s : String) (c : Nat), ∃ units : List String,
      (emitGroups groups (s, c)).1 = s ++ units.foldr (· ++ ·) "" ∧ ∀ u ∈ units, P u := by
  induction groups with
  | nil =>
    intro s c
    exact ⟨[], by simp [emitGroups, String.append_empty], by simp⟩
  | cons g rest ih =>
    intro s c
    simp only [emitGroups]
    split_ifs with hover
    · exact ⟨[], by simp [String.append_empty], by simp⟩
    · obtain ⟨units1, hu1, hp1⟩ :=
        emitLines_units P g.2 (fun m hm => (hP g (by simp)).2 m hm)
          (s ++ categoryHeader g.1) (c + (categoryHeader g.1).length)
      obtain ⟨units2, hu2, hp2⟩ :=
        ih (fun g' hg' => hP g' (by simp [hg'])) (emitLines g.2
          (s ++ categoryHeader g.1, c + (categoryHeader g.1).length)).1
          (emitLines g.2
            (s ++ categoryHeader g.1, c + (categoryHeader g.1).length)).2
      rw [Prod.mk.eta] at hu2
      refine ⟨categoryHeader g.1 :: (units1 ++ units2), ?_, ?_⟩
      · rw [hu2, hu1]
        show s ++ categoryHeader g.1 ++ units1.foldr (· ++ ·) "" ++
            units2.foldr (· ++ ·) "" =
          s ++ (categoryHeader g.1 ++ (units1 ++ units2).foldr (· ++ ·) "")
        conv_rhs => rw [List.foldr_append]
        rw [foldr_append_str units1 (List.foldr (· ++ ·) "" units2)]
        simp [String.append_assoc]
      · intro u hu
        rcases List.mem_cons.mp hu with h | h
        · exact h ▸ (hP g (by simp)).1
        · rcases List.mem_append.mp h with h' | h'
          · exact hp1 u h'
          · exact hp2 u h'

theorem groupInsert_mem {acc : List (MemoryCategory × List SubjectMemory)}
    {m : SubjectMemory} {g : MemoryCategory × List SubjectMemory}
    {x : SubjectMemory} (hg : g ∈ groupInsert acc m) (hx : x ∈ g.2) :
    (∃ g' ∈ acc, x ∈ g'.2) ∨ x = m := by
  unfold groupInsert at hg
  split_ifs at hg with hany
  · rcases List.mem_map.mp hg with ⟨g', hg', rfl⟩
    by_cases hc : g'.1 = m.category
    · simp only [hc, if_true] at hx
      rcases List.mem_append.mp hx with hx' | hx'
      · exact Or.inl ⟨g', hg', hx'⟩
      · exact Or.inr (by simpa using hx')
    · simp only [hc, if_false] at hx
      exact Or.inl ⟨g', hg', hx⟩
  · rcases List.mem_append.mp hg with hg' | hg'
    · exact Or.inl ⟨g, hg', hx⟩
    · have : g = (m.category, [m]) := by simpa using hg'
      subst this
      exact Or.inr (by simpa using hx)

theorem foldl_groupInsert_mem (l₀ : List SubjectMemory) :
    ∀ (l : List SubjectMemory) (acc : List (MemoryCategory × List SubjectMemory)),
      (∀ g ∈ acc, ∀ x ∈ g.2, x ∈ l₀) → (∀ m ∈ l, m ∈ l₀) →
      ∀ g ∈ List.foldl groupInsert acc l, ∀ x ∈ g.2, x ∈ l₀ := by
  intro l
  induction l with
  | nil =>
    intro acc hacc _
    simpa using hacc
  | cons m rest ih =>
    intro acc hacc hl
    simp only [List.foldl_cons]
    apply ih
    · intro g hg x hx
      rcases groupInsert_mem hg hx with ⟨g', hg', hx'⟩ | heq
      · exact hacc g' hg' x hx'
      · exact heq ▸ hl m (by simp)
    · intro m' hm'
      exact hl m' (by simp [hm'])

theorem groupByCategory_mem {memories : List SubjectMemory} :
    ∀ g ∈ groupByCategory memories, ∀ x ∈ g.2, x ∈ memories :=
  foldl_groupInsert_mem memories memories [] (by simp) (fun _ hm => hm)

theorem chunkTextGo_indices (decode : List Nat → String) (tokens : List Nat)
    (cs ov : Nat) :
    ∀ (start index : Nat),
      (chunkTextGo decode tokens cs ov start index).map (fun c => c.index) =
        List.range' index (chunkTextGo decode tokens cs ov start index).length := by
  have H : ∀ (k start index : Nat), tokens.length - start ≤ k →
      (chunkTextGo decode tokens cs ov start index).map (fun c => c.index) =
        List.range' index (chunkTextGo decode tokens cs ov start index).length := by
    intro k
    induction k with
    | zero =>
      intro start index hk
      rw [chunkTextGo]
      have hns : ¬ start < tokens.length := by omega
      simp [hns]
    | succ k ih =>
      intro start index hk
      rw [chunkTextGo]
      by_cases hs : start < tokens.length
      · rw [dif_pos hs]
        by_cases hb : cs ≤ ov
        · rw [dif_pos hb]
          simp [List.range']
        · rw [dif_neg hb]
          have hrec := ih (start + (cs - ov)) (index + 1) (by omega)
          simp only [List.map_cons, List.length_cons, hrec]
          rfl
      · rw [dif_neg hs]
        simp
  exact fun start index => H (tokens.length - start) start index le_rfl

theorem chunkText_indices (encode : String → List Nat) (decode : List Nat → String)
    (text : String) (cs ov : Nat) :
    (chunkText encode decode text cs ov).map (fun c => c.index) =
      List.range (chunkText encode decode text cs ov).length := by
  rw [chunkText, chunkTextGo_indices, List.range_eq_range']

theorem semanticPass_indices (cs : Nat) :
    ∀ (paras : List String) (cur : String) (acc : List Chunk) (index : Nat),
      acc.map (fun c => c.index) = List.range acc.length → index = acc.length →
      (semanticPass cs paras cur acc index).map (fun c => c.index) =
        List.range (semanticPass cs paras cur acc index).length := by
  intro paras
  induction paras with
  | nil =>
    intro cur acc index hacc hidx
    rw [semanticPass]
    split_ifs with hcur
    · subst hidx
      simp [hacc, List.range_succ]
    · exact hacc
  | cons p rest ih =>
    intro cur acc index hacc hidx
    rw [semanticPass]
    by_cases hlen : (cur ++ p).length < cs * 4
    · rw [if_pos hlen]
      exact ih _ acc index hacc hidx
    · rw [if_neg hlen]
      by_cases hcur : cur ≠ ""
      · rw [if_pos hcur]
        apply ih
        · subst hidx
          simp [hacc, List.range_succ]
        · simp [hidx]
      · rw [if_neg hcur]
        exact ih _ acc index hacc hidx

theorem flatMap_singleton_chunks (l : List Chunk) (f : Chunk → List Chunk)
    (h : ∀ c ∈ l, f c = [c]) : l.flatMap f = l := by
  induction l with
  | nil => simp
  | cons c rest ih =>
    simp only [List.flatMap_cons]
    rw [h c (by simp), ih fun c' hc' => h c' (by simp [hc'])]
    rfl


theorem c1ParaA_length : c1ParaA.length = 2000 := by
  show (List.replicate 2000 'a').length = 2000
  exact List.length_replicate 2000 'a'

theorem c1Text_data : (c1ParaA ++ "\n\nb").data =
    List.replicate 2000 'a' ++ ['\n', '\n', 'b'] := by
  rw [String.data_append]
  rfl

theorem c1ParaA_ne_blank : c1ParaA ≠ "" := by
  intro h
  have h0 : c1ParaA.length = 0 := by rw [h]; rfl
  rw [c1ParaA_length] at h0
  omega

theorem splitParagraphsGo_no_newline :
    ∀ (xs rest buf : List Char) (acc : List String), (∀ c ∈ xs, ¬ c = '\n') →
      splitParagraphsGo (xs ++ rest) buf acc =
        splitParagraphsGo rest (xs.reverse ++ buf) acc := by
  intro xs
  induction xs with
  | nil => intro rest buf acc _; simp
  | cons c xs' ih =>
    intro rest buf acc h
    have hc : ¬ c = '\n' := h c (by simp)
    rw [List.cons_append, splitParagraphsGo, if_neg hc,
      ih _ _ _ (fun c' hc' => h c' (by simp [hc']))]
    simp [List.append_assoc]

theorem splitParagraphs_c1Text : splitParagraphs (c1ParaA ++ "\n\nb") = [c1ParaA, "b"] := by
  unfold splitParagraphs
  rw [c1Text_data, splitParagraphsGo_no_newline _ _ _ _
    (by intro c hc; rw [List.eq_of_mem_replicate hc]; decide)]
  rw [splitParagraphsGo]
  rw [if_pos rfl]
  simp only [List.append_nil, List.reverse_reverse]
  rw [show List.takeWhile jsWhitespace ['\n', 'b'] = ['\n'] from by decide]
  show splitParagraphsGo ['b'] [] [String.mk (List.replicate 2000 'a')] = [c1ParaA, "b"]
  rw [splitParagraphsGo, if_neg (by decide)]
  rw [splitParagraphsGo]
  rfl

theorem semanticPass_c1 : semanticPass 500 [c1ParaA, "b"] "" [] 0 =
    [{ content := c1ParaA, index := 0 }, { content := "b", index := 1 }] := by
  rw [semanticPass, if_neg (by rw [String.empty_append, c1ParaA_length]; omega),
    if_neg (by simp)]
  rw [semanticPass, if_neg (by rw [String.length_append, c1ParaA_length]; simp),
    if_pos c1ParaA_ne_blank]
  rw [semanticPass, if_pos (by decide)]
  rfl

theorem charEncode_c1ParaA_length : (charEncode c1ParaA).length = 2000 := by
  show (c1ParaA.data.map Char.toNat).length = 2000
  rw [List.length_map]
  show (List.replicate 2000 'a').length = 2000
  exact List.length_replicate 2000 'a'

theorem semanticChunking_c1Text :
    semanticChunking charEncode charDecode (c1ParaA ++ "\n\nb") 500 50 =
      chunkText charEncode charDecode c1ParaA 500 50 ++
        [{ content := "b", index := 1 }] := by
  unfold semanticChunking
  rw [splitParagraphs_c1Text, semanticPass_c1]
  rw [List.flatMap_cons, List.flatMap_cons, List.flatMap_nil]
  rw [if_pos (by rw [charEncode_c1ParaA_length]; omega),
    if_neg (by show ¬ 500 < (charEncode "b").length; decide)]
  simp

theorem chunkText_two_le (encode : String → List Nat) (decode : List Nat → String)
    (text : String) (cs ov : Nat) (hov : ov < cs)
    (h2 : cs - ov < (encode text).length) :
    2 ≤ (chunkText encode decode text cs ov).length := by
  rw [chunkText]
  rw [chunkTextGo, dif_pos (by omega), dif_neg (by omega)]
  rw [chunkTextGo, dif_pos (by omega)]
  simp

theorem c1_chunkText_two_le :
    2 ≤ (chunkText charEncode charDecode c1ParaA 500 50).length :=
  chunkText_two_le charEncode charDecode c1ParaA 500 50 (by omega)
    (by rw [charEncode_c1ParaA_length]; omega)

theorem dropWhile_replicate_a (t : List Char) (n : Nat) :
    List.dropWhile jsWhitespace (List.replicate (n + 1) 'a' ++ t) =
      List.replicate (n + 1) 'a' ++ t := by
  rw [List.replicate_succ, List.cons_append, List.dropWhile_cons_of_neg (by decide)]

theorem c1Text_not_blank : ¬ (c1ParaA ++ "\n\nb" = "" ∨ jsTrim (c1ParaA ++ "\n\nb") = "") := by
  have hlen : (c1ParaA ++ "\n\nb").length = 2003 := by
    rw [String.length_append, c1ParaA_length]
    rfl
  rintro (h | h)
  · rw [h] at hlen
    exact absurd hlen (by decide)
  · have hd := congrArg String.data h
    have hmkd : ∀ l : List Char, (String.mk l).data = l := fun _ => rfl
    unfold jsTrim at hd
    rw [hmkd] at hd
    rw [show ("" : String).data = [] from rfl] at hd
    rw [c1Text_data] at hd
    rw [show List.replicate 2000 'a' = List.replicate (1999 + 1) 'a' from rfl] at hd
    rw [dropWhile_replicate_a] at hd
    rw [List.reverse_append] at hd
    rw [show (['\n', '\n', 'b'] : List Char).reverse = 'b' :: ['\n', '\n'] from rfl] at hd
    rw [List.cons_append, List.dropWhile_cons_of_neg (by decide)] at hd
    rw [List.reverse_eq_nil_iff] at hd
    exact List.cons_ne_nil _ _ hd

theorem processFile_success (encode : String → List Nat) (decode : List Nat → String)
    (env : PipelineEnv) (er : ExtractionResult) (st0 : ProcessStatus)
    (hf : env.file = some st0) (hup : env.updateProcessingOk = true)
    (hex : env.extract = Except.ok er)
    (hemp : ¬ (er.text = "" ∨ jsTrim er.text = ""))
    (hem : env.embedOk = true) (huc : env.updateCompletedOk = true) :
    processFile encode decode env =
      { status := some .COMPLETED,
        fragments := (semanticChunking encode decode er.text 500 50).map
          (fun c => (c.index, c.content)),
        raised := false } := by
  obtain ⟨file, up, ex, em, uc, uf⟩ := env
  simp only at hf hup hex hem huc
  subst hf hup hex hem huc
  simp [processFile, hemp]

theorem splitParagraphs_hello : splitParagraphs "hello" = ["hello"] := by
  unfold splitParagraphs
  have h := splitParagraphsGo_no_newline "hello".data [] [] [] (by decide)
  rw [List.append_nil] at h
  rw [h, splitParagraphsGo]
  decide

/-! ## Claim theorems -/

/-- C10: on the empty memory list `formatMemoriesForPrompt` returns the
empty string, while `formatContext` on an empty chunk list returns the
explicit no-relevant-information sentinel. -/
theorem C10_empty_formatting :
    formatMemoriesForPrompt [] = "" ∧
    formatContext [] = "No relevant information found in study materials." := by
  constructor <;> rfl

/-- C9: a `MemoryService.create` call whose input omits `importance`
stores the memory with importance 5. -/
theorem C9_default_importance (subjectId : String) (input : CreateMemoryInput)
    (h : input.importance = none) :
    (MemoryService.create subjectId input).importance = 5 := by
  simp [MemoryService.create, h]

/-- Witness for C9 at a concrete input with no importance field. -/
theorem C9_witness :
    (MemoryService.create "subj"
      { content := "likes diagrams", category := .PREFERENCE,
        importance := none, sourceConversationId := none,
        expiresAt := none }).importance = 5 :=
  C9_default_importance "subj"
    { content := "likes diagrams", category := .PREFERENCE,
      importance := none, sourceConversationId := none, expiresAt := none }
    rfl

/-- C7: when either argument of `cosineSimilarity` is a zero-magnitude
vector the result is the real number 0 — the `isNaN` guard makes the
function total instead of propagating `NaN`. -/
theorem C7_zero_vector_similarity (a b : List ℚ)
    (h : (∀ x ∈ a, x = 0) ∨ (∀ x ∈ b, x = 0)) :
    cosineSimilarity a b = 0 := by
  unfold cosineSimilarity
  rcases h with h | h
  · rw [if_pos]
    rw [dotProduct_self_zero h]
    simp
  · rw [if_pos]
    rw [dotProduct_self_zero h]
    simp

/-- Witness for C7: the zero vector against `[1, 2]`. -/
theorem C7_witness : cosineSimilarity [0, 0] [1, 2] = 0 :=
  C7_zero_vector_similarity [0, 0] [1, 2] (Or.inl (by decide))


/-- C1 (counterexample): a successful (COMPLETED) run of `processFile`
on `c1Env` — a 2,000-character paragraph followed by a short second
paragraph — persists fragments whose chunk indices contain a duplicate
(the sub-chunking of the oversized first chunk restarts its indices at
0), so the stored indices are not `0, 1, ..., n-1`. -/
theorem C1_counterexample :
    (processFile charEncode charDecode c1Env).status = some .COMPLETED ∧
    ¬ ((processFile charEncode charDecode c1Env).fragments.map Prod.fst).Nodup ∧
    (processFile charEncode charDecode c1Env).fragments.map Prod.fst ≠
      List.range (processFile charEncode charDecode c1Env).fragments.length := by
  have hred := processFile_success charEncode charDecode c1Env
    { text := c1ParaA ++ "\n\nb" } .PENDING rfl rfl rfl c1Text_not_blank rfl rfl
  have hfrag : (processFile charEncode charDecode c1Env).fragments.map Prod.fst =
      List.range (chunkText charEncode charDecode c1ParaA 500 50).length ++ [1] := by
    rw [hred]
    show ((semanticChunking charEncode charDecode (c1ParaA ++ "\n\nb") 500 50).map
      (fun c => (c.index, c.content))).map Prod.fst = _
    rw [semanticChunking_c1Text, List.map_append, List.map_append,
      List.map_map, List.map_map]
    rw [show (Prod.fst ∘ fun c : Chunk => (c.index, c.content)) =
      fun c : Chunk => c.index from rfl]
    rw [chunkText_indices]
    rfl
  have hnodup :
      ¬ ((processFile charEncode charDecode c1Env).fragments.map Prod.fst).Nodup := by
    rw [hfrag]
    intro hnd
    rw [List.nodup_append] at hnd
    have h1 : (1 : Nat) ∈
        List.range (chunkText charEncode charDecode c1ParaA 500 50).length :=
      List.mem_range.mpr (by have := c1_chunkText_two_le; omega)
    exact hnd.2.2 h1 (by simp)
  refine ⟨by rw [hred], hnodup, ?_⟩
  intro heq
  have hr := List.nodup_range ((processFile charEncode charDecode c1Env).fragments.length)
  rw [← heq] at hr
  exact hnodup hr

/-- C1 (amended): when no chunk of the semantic first pass exceeds the
500-token chunk size — so the token-window sub-chunking that restarts
indices at 0 is never triggered — a completed `processFile` run persists
fragments with exactly the contiguous, duplicate-free chunk indices
`0, 1, ..., n-1`. -/
theorem C1_amended_contiguous_indices (encode : String → List Nat)
    (decode : List Nat → String) (env : PipelineEnv) (er : ExtractionResult)
    (hex : env.extract = Except.ok er)
    (hfit : ∀ c ∈ semanticPass 500 (splitParagraphs er.text) "" [] 0,
      (encode c.content).length ≤ 500)
    (hok : (processFile encode decode env).status = some .COMPLETED) :
    (processFile encode decode env).fragments.map Prod.fst =
      List.range (processFile encode decode env).fragments.length := by
  have hchunks : semanticChunking encode decode er.text 500 50 =
      semanticPass 500 (splitParagraphs er.text) "" [] 0 := by
    unfold semanticChunking
    apply flatMap_singleton_chunks
    intro c hc
    rw [if_neg]
    exact Nat.not_lt.mpr (hfit c hc)
  have hidx : (semanticChunking encode decode er.text 500 50).map (fun c => c.index) =
      List.range (semanticChunking encode decode er.text 500 50).length := by
    rw [hchunks]
    exact semanticPass_indices 500 (splitParagraphs er.text) "" [] 0 (by simp) (by simp)
  have hfrag : (processFile encode decode env).fragments = [] ∨
      (processFile encode decode env).fragments =
        (semanticChunking encode decode er.text 500 50).map
          (fun c => (c.index, c.content)) := by
    obtain ⟨file, up, ex, em, uc, uf⟩ := env
    simp only at hex
    subst hex
    cases file with
    | none => left; rfl
    | some st =>
      cases up with
      | false => left; simp [processFile, pipelineCatch]
      | true =>
        by_cases hemp : er.text = "" ∨ jsTrim er.text = ""
        · left; simp [processFile, pipelineCatch, hemp]
        · cases em with
          | false => left; simp [processFile, pipelineCatch, hemp]
          | true =>
            cases uc with
            | false => right; simp [processFile, pipelineCatch, hemp]
            | true => right; simp [processFile, hemp]
  rcases hfrag with h | h
  · rw [h]
    simp
  · rw [h, List.map_map, List.length_map]
    have hcomp : (Prod.fst ∘ fun c : Chunk => (c.index, c.content)) =
        fun c : Chunk => c.index := rfl
    rw [hcomp, hidx]


/-- Witness for C1 (amended): a one-paragraph text whose single semantic
chunk fits the token budget; the completed run stores index list
`[0] = range 1`. -/
theorem C1_witness :
    (processFile charEncode charDecode smallEnv).fragments.map Prod.fst =
      List.range (processFile charEncode charDecode smallEnv).fragments.length :=
  C1_amended_contiguous_indices charEncode charDecode smallEnv { text := "hello" }
    rfl
    (by rw [splitParagraphs_hello]; decide)
    (by rw [processFile_success charEncode charDecode smallEnv { text := "hello" }
      .PENDING rfl rfl rfl (by decide) rfl rfl])

/-- C8 (counterexample): with `chunkSize = overlap = 5` — i.e.
`overlap ≥ chunk_size` — the empty input text encodes to the empty token
list and `chunkText` produces zero chunks, not the one chunk the claim
asserts for every input text. -/
theorem C8_counterexample :
    5 ≤ 5 ∧ charEncode "" = [] ∧
    (chunkText charEncode charDecode "" 5 5).length = 0 ∧
    (chunkText charEncode charDecode "" 5 5).length ≠ 1 := by
  have he : charEncode "" = [] := rfl
  have h0 : (chunkText charEncode charDecode "" 5 5).length = 0 := by
    rw [chunkText, chunkTextGo]
    simp [he]
  exact ⟨le_refl 5, he, h0, by omega⟩

/-- C8 (amended): if `overlap ≥ chunk_size`, `chunkText` terminates and
produces exactly one chunk when the text encodes to at least one token,
and zero chunks when it encodes to the empty token list. -/
theorem C8_amended_single_window (encode : String → List Nat)
    (decode : List Nat → String) (text : String) (chunkSize chunkOverlap : Nat)
    (h : chunkSize ≤ chunkOverlap) :
    (chunkText encode decode text chunkSize chunkOverlap).length =
      if encode text = [] then 0 else 1 := by
  unfold chunkText
  rw [chunkTextGo]
  by_cases he : encode text = []
  · simp [he]
  · have hlen : 0 < (encode text).length := List.length_pos.mpr he
    simp [he, hlen, h]

/-- Witness for C8 (amended) at `chunkSize = 3 ≤ 7 = overlap` on a
two-token text. -/
theorem C8_witness :
    (chunkText charEncode charDecode "hi" 3 7).length =
      if charEncode "hi" = [] then 0 else 1 :=
  C8_amended_single_window charEncode charDecode "hi" 3 7 (by decide)

/-- C2 (counterexample): a candidate whose content length is exactly 5
satisfies the claim's inclusive 5–500 bound (and a valid category and
importance), yet `extractMemories` discards it: the code's filter demands
a length strictly greater than 5 and strictly less than 500. -/
theorem C2_counterexample :
    specExtractedMemoryValid
      { content := "abcde", category := "FACT", importance := 5 } = true ∧
    extractMemories
      [{ content := "abcde", category := "FACT", importance := 5 }] = [] := by
  constructor <;> decide

/-- C2 (amended): `extractMemories` keeps exactly the candidates whose
content length is strictly between 5 and 500, whose category is one of
the six fixed categories and whose importance is between 1 and 10
inclusive, capped at the first 3 such candidates: the result has at most
3 items, every kept item satisfies those bounds, and a valid candidate is
kept unless the cap of 3 is already reached. -/
theorem C2_amended_extraction_filter (candidates : List ExtractedMemoryItem) :
    (extractMemories candidates).length ≤ 3 ∧
    (∀ m ∈ extractMemories candidates,
      5 < m.content.length ∧ m.content.length < 500 ∧
      (m.category = "PREFERENCE" ∨ m.category = "FACT" ∨
       m.category = "PROGRESS" ∨ m.category = "CORRECTION" ∨
       m.category = "GOAL" ∨ m.category = "CUSTOM") ∧
      1 ≤ m.importance ∧ m.importance ≤ 10) ∧
    (∀ m ∈ candidates, extractedMemoryValid m = true →
      m ∈ extractMemories candidates ∨ (extractMemories candidates).length = 3) := by
  refine ⟨?_, ?_, ?_⟩
  · unfold extractMemories
    rw [List.length_take]
    omega
  · intro m hm
    unfold extractMemories at hm
    have hmf : m ∈ candidates.filter extractedMemoryValid :=
      List.take_subset _ _ hm
    have hv : extractedMemoryValid m = true := (List.mem_filter.mp hmf).2
    have hv' := hv
    simp only [extractedMemoryValid, decide_eq_true_eq] at hv'
    exact ⟨hv'.2.1, hv'.2.2.1, hv'.2.2.2.1, hv'.2.2.2.2.1, hv'.2.2.2.2.2⟩
  · intro m hm hv
    unfold extractMemories
    by_cases hlen : (candidates.filter extractedMemoryValid).length ≤ 3
    · left
      rw [List.take_of_length_le hlen]
      exact List.mem_filter.mpr ⟨hm, hv⟩
    · right
      rw [List.length_take]
      omega

/-- Witness for C2 (amended): a valid candidate is kept (or the cap is
full) on a concrete singleton list. -/
theorem C2_witness :
    c2Item ∈ extractMemories [c2Item] ∨ (extractMemories [c2Item]).length = 3 :=
  (C2_amended_extraction_filter [c2Item]).2.2 c2Item (by decide) (by decide)

/-- C4: `retrieve` returns at most `topK` chunks (default 5) and every
returned chunk has similarity at least `minSimilarity` (default 0.3); the
threshold filter runs before the `topK` cut, so the result may hold fewer
than `topK` chunks, including none. -/
theorem C4_retrieve_topk_threshold (simFn : List ℚ → List ℚ → ℚ)
    (queryEmbedding : List ℚ) (rows : List EmbeddingRow)
    (topK? : Option Nat) (minSimilarity? : Option ℚ) :
    (retrieve simFn queryEmbedding rows topK? minSimilarity?).length ≤ topK?.getD 5 ∧
    ∀ c ∈ retrieve simFn queryEmbedding rows topK? minSimilarity?,
      minSimilarity?.getD (3 / 10) ≤ c.similarity := by
  constructor
  · unfold retrieve
    rw [List.length_take]
    omega
  · intro c hc
    unfold retrieve at hc
    have hcf := List.take_subset _ _ hc
    have h2 := (List.mem_filter.mp hcf).2
    simpa [decide_eq_true_eq] using h2

/-- Witness for C4 on the §8 scenario (scores 0.95, 0.6, 0.91 with
`min_similarity = 0.9`): the bound and, for the top chunk, the threshold
hypothesis are discharged concretely. -/
theorem C4_witness :
    (retrieve headScore [] scenarioRows none (some (9 / 10))).length ≤ 5 ∧
    (9 : ℚ) / 10 ≤ c4TopChunk.similarity :=
  ⟨(C4_retrieve_topk_threshold headScore [] scenarioRows none (some (9 / 10))).1,
   (C4_retrieve_topk_threshold headScore [] scenarioRows none (some (9 / 10))).2
     c4TopChunk (by
      simp only [retrieve, scenarioRows, scoreRow, headScore, List.map_cons,
        List.map_nil, sortBySimilarityDesc, insertDesc]
      norm_num [c4TopChunk, insertDesc, List.filter])⟩

/-- C3: when extraction yields only whitespace, `processFile` ends with
the file's status FAILED (the status write succeeding), never COMPLETED,
and `processFile` never raises to its caller in any environment. -/
theorem C3_empty_text_fails (encode : String → List Nat)
    (decode : List Nat → String) (env : PipelineEnv) (st0 : ProcessStatus)
    (er : ExtractionResult) (hf : env.file = some st0)
    (hex : env.extract = Except.ok er) (hempty : jsTrim er.text = "")
    (hfail : env.updateFailedOk = true) :
    (processFile encode decode env).status = some .FAILED ∧
    (processFile encode decode env).status ≠ some .COMPLETED ∧
    ∀ env2 : PipelineEnv, (processFile encode decode env2).raised = false := by
  have hmain : (processFile encode decode env).status = some .FAILED := by
    unfold processFile
    simp only [hf]
    by_cases hp : env.updateProcessingOk
    · simp [hp, hex, hempty, pipelineCatch, hfail]
    · simp [hp, pipelineCatch, hfail]
  exact ⟨hmain, by simp [hmain], fun env2 => processFile_raised_false encode decode env2⟩

/-- C5: every input accepted by the create/update validation reaching
`MemoryService.create` / `MemoryService.update` yields a stored row with
importance in [1, 10] (updates starting from an in-range row); the
category is one of the six fixed categories by the `MemoryCategory` type
of the parsed input. -/
theorem C5_importance_invariant :
    (∀ (subjectId : String) (body : RawMemoryBody) (input : CreateMemoryInput),
      createMemorySchemaParse body = some input →
      1 ≤ (MemoryService.create subjectId input).importance ∧
      (MemoryService.create subjectId input).importance ≤ 10) ∧
    (∀ (body : RawUpdateBody) (input : UpdateMemoryInput) (memory : SubjectMemory),
      updateMemorySchemaParse body = some input →
      1 ≤ memory.importance → memory.importance ≤ 10 →
      1 ≤ (MemoryService.update memory input).importance ∧
      (MemoryService.update memory input).importance ≤ 10) := by
  constructor
  · intro subjectId body input h
    obtain ⟨i, hi, h1, h10⟩ := createParse_importance h
    simp only [MemoryService.create, hi, Option.getD_some]
    exact ⟨h1, h10⟩
  · intro body input memory h hm1 hm10
    rcases updateParse_importance h with hnone | ⟨i, hi, h1, h10⟩
    · simp only [MemoryService.update, hnone, Option.getD_none]
      exact ⟨hm1, hm10⟩
    · simp only [MemoryService.update, hi, Option.getD_some]
      exact ⟨h1, h10⟩

/-- C6: the string `formatMemoriesForPrompt` returns never exceeds the
4,000-character `MAX_MEMORY_CHARS` budget, and the emitted text (before
the final trim) is a concatenation of whole units — each unit a complete
category header or a complete memory line of one of the input memories —
never a truncated line. -/
theorem C6_format_budget (memories : List SubjectMemory) :
    (formatMemoriesForPrompt memories).length ≤ MAX_MEMORY_CHARS ∧
    ∃ units : List String,
      (emitGroups (groupByCategory memories) ("", 0)).1 = units.foldr (· ++ ·) "" ∧
      ∀ u ∈ units,
        (∃ cat, u = categoryHeader cat) ∨ ∃ m ∈ memories, u = memoryLine m := by
  constructor
  · unfold formatMemoriesForPrompt
    split_ifs with hempty
    · simp [MAX_MEMORY_CHARS]
    · have hbud := emitGroups_budget (groupByCategory memories) "" 0 rfl
        (by simp [MAX_MEMORY_CHARS])
      calc (jsTrim (emitGroups (groupByCategory memories) ("", 0)).1).length
          ≤ (emitGroups (groupByCategory memories) ("", 0)).1.length :=
            jsTrim_length_le _
        _ = (emitGroups (groupByCategory memories) ("", 0)).2 := hbud.1
        _ ≤ MAX_MEMORY_CHARS := hbud.2
  · obtain ⟨units, hu, hp⟩ := emitGroups_units
      (fun u => (∃ cat, u = categoryHeader cat) ∨ ∃ m ∈ memories, u = memoryLine m)
      (groupByCategory memories)
      (fun g hg => ⟨Or.inl ⟨g.1, rfl⟩,
        fun m hm => Or.inr ⟨m, groupByCategory_mem g hg m hm, rfl⟩⟩)
      "" 0
    exact ⟨units, by rw [hu, String.empty_append], hp⟩


/-- Witness for C6 at a concrete memory list. -/
theorem C6_witness :
    (formatMemoriesForPrompt
      [{ content := "likes cats", category := .FACT, importance := 5,
         isActive := true, expiresAt := none, sourceConversationId := none,
         subjectId := "s" }]).length ≤ MAX_MEMORY_CHARS :=
  (C6_format_budget
    [{ content := "likes cats", category := .FACT, importance := 5,
       isActive := true, expiresAt := none, sourceConversationId := none,
       subjectId := "s" }]).1

/-- Witness for C5: a concrete accepted create body (importance 9) and a
concrete accepted update body (importance absent) against an in-range
row. -/
theorem C5_witness :
    (1 ≤ (MemoryService.create "subj"
      { content := "remembers formulas", category := .FACT,
        importance := some 9, sourceConversationId := none,
        expiresAt := none }).importance ∧
     (MemoryService.create "subj"
      { content := "remembers formulas", category := .FACT,
        importance := some 9, sourceConversationId := none,
        expiresAt := none }).importance ≤ 10) ∧
    (1 ≤ (MemoryService.update
      { content := "old", category := .FACT, importance := 4,
        isActive := true, expiresAt := none, sourceConversationId := none,
        subjectId := "subj" }
      { content := none, category := none, importance := none,
        isActive := some false, expiresAt := none }).importance ∧
     (MemoryService.update
      { content := "old", category := .FACT, importance := 4,
        isActive := true, expiresAt := none, sourceConversationId := none,
        subjectId := "subj" }
      { content := none, category := none, importance := none,
        isActive := some false, expiresAt := none }).importance ≤ 10) :=
  ⟨C5_importance_invariant.1 "subj"
      { content := some "remembers formulas", category := some "FACT",
        importance := some 9, expiresAt := none }
      _ (by decide),
   C5_importance_invariant.2
      { content := none, category := none, importance := none,
        isActive := some false, expiresAt := none }
      _ _ (by decide) (by decide) (by decide)⟩

/-- Witness for C3 on a concrete whitespace-only extraction. -/
theorem C3_witness :
    (processFile charEncode charDecode emptyTextEnv).status = some .FAILED :=
  (C3_empty_text_fails charEncode charDecode emptyTextEnv .PENDING
    { text := "  \n " } rfl rfl (by decide) rfl).1

end Spec2Proof
